import Mathlib

/-!
Verification development for the spatial co-occurrence and leakage-safe
split engine of `src/deepbiosphere/Build_Data.py`.

The embedding works over exact integer geometry: observations are points
with integer coordinates in a metric (meter) projection, and every
distance is represented by its *square*, a natural number (`distSq`).
Comparisons of Euclidean distances against thresholds in the source
(`next_dist > excl_dist`, `dist <= overlap_dist`, ...) are modelled by the
equivalent comparisons of squared distances against squared thresholds,
which is exact for non-negative quantities.  The value `+inf` that numpy
produces for the padded entries of a `cKDTree.query` result whose `k`
exceeds the number of points is modelled by `⊤` in `ℕ∞ = WithTop ℕ`.
-/

/-- A point of the observation table, in a projected metric CRS. -/
abbrev Pt := Int × Int

/-- Squared Euclidean distance between two points (exact, in ℕ). -/
def distSq (a b : Pt) : ℕ := ((a.1 - b.1) ^ 2 + (a.2 - b.2) ^ 2).toNat

/-- Extended squared distance: `⊤` plays the role of numpy's `inf`
(the fill value of `cKDTree.query` when fewer than `k` points exist). -/
abbrev NNInf := WithTop ℕ

theorem distSq_comm (a b : Pt) : distSq a b = distSq b a := by
  unfold distSq
  ring_nf

theorem distSq_self (a : Pt) : distSq a a = 0 := by
  unfold distSq
  simp

/-- A neighbor entry as returned by the KD-tree query: the neighbor's
positional index and the (squared) distance to it. -/
abbrev NbrEntry := ℕ × NNInf

/-- Ordering of neighbor entries: ascending distance, ties broken by
index (one concrete realization of the tie order of `cKDTree.query`,
whose output is sorted by distance). -/
def lexLe (a b : NbrEntry) : Prop := a.2 < b.2 ∨ (a.2 = b.2 ∧ a.1 ≤ b.1)

instance : DecidableRel lexLe := fun a b => by
  unfold lexLe; infer_instance

theorem lexLe_total (a b : NbrEntry) : lexLe a b ∨ lexLe b a := by
  unfold lexLe
  rcases lt_trichotomy a.2 b.2 with h | h | h
  · exact Or.inl (Or.inl h)
  · rcases Nat.le_total a.1 b.1 with h' | h'
    · exact Or.inl (Or.inr ⟨h, h'⟩)
    · exact Or.inr (Or.inr ⟨h.symm, h'⟩)
  · exact Or.inr (Or.inl h)

theorem lexLe_trans {a b c : NbrEntry} (h₁ : lexLe a b) (h₂ : lexLe b c) :
    lexLe a c := by
  unfold lexLe at *
  rcases h₁ with h₁ | ⟨e₁, i₁⟩
  · rcases h₂ with h₂ | ⟨e₂, _⟩
    · exact Or.inl (h₁.trans h₂)
    · exact Or.inl (e₂ ▸ h₁)
  · rcases h₂ with h₂ | ⟨e₂, i₂⟩
    · exact Or.inl (e₁ ▸ h₂)
    · exact Or.inr ⟨e₁.trans e₂, i₁.trans i₂⟩

theorem lexLe_antisymm {a b : NbrEntry} (h₁ : lexLe a b) (h₂ : lexLe b a) :
    a = b := by
  unfold lexLe at *
  rcases h₁ with h₁ | ⟨e₁, i₁⟩
  · rcases h₂ with h₂ | ⟨e₂, _⟩
    · exact absurd h₂ (not_lt_of_lt h₁)
    · exact absurd h₁ (e₂ ▸ lt_irrefl _)
  · rcases h₂ with h₂ | ⟨_, i₂⟩
    · exact absurd h₂ (e₁ ▸ lt_irrefl _)
    · exact Prod.ext (Nat.le_antisymm i₁ i₂) e₁

instance : IsTotal NbrEntry lexLe := ⟨lexLe_total⟩
instance : IsTrans NbrEntry lexLe := ⟨fun _ _ _ => lexLe_trans⟩
instance : IsAntisymm NbrEntry lexLe := ⟨fun _ _ => lexLe_antisymm⟩

theorem lexLe_dist_le {a b : NbrEntry} (h : lexLe a b) : a.2 ≤ b.2 := by
  rcases h with h | ⟨h, _⟩
  · exact le_of_lt h
  · exact le_of_eq h

/-- Insert an entry into a distance-sorted list (building block of the
sorted order that `cKDTree.query` returns). -/
def insertPair (x : NbrEntry) : List NbrEntry → List NbrEntry
  | [] => [x]
  | y :: ys => if lexLe x y then x :: y :: ys else y :: insertPair x ys

/-- Sort neighbor entries by ascending distance (ties by index), the
order in which `cKDTree.query` reports neighbors. -/
def sortPairs (l : List NbrEntry) : List NbrEntry := l.foldr insertPair []

theorem insertPair_perm (x : NbrEntry) (l : List NbrEntry) :
    List.Perm (insertPair x l) (x :: l) := by
  induction l with
  | nil => rfl
  | cons y ys ih =>
      unfold insertPair
      by_cases h : lexLe x y
      · rw [if_pos h]
      · rw [if_neg h]
        exact ((ih.cons y).trans (List.Perm.swap x y ys))

theorem sortPairs_perm (l : List NbrEntry) : List.Perm (sortPairs l) l := by
  induction l with
  | nil => rfl
  | cons y ys ih =>
      exact (insertPair_perm y (sortPairs ys)).trans (ih.cons y)

theorem insertPair_sorted (x : NbrEntry) {l : List NbrEntry}
    (h : l.Sorted lexLe) : (insertPair x l).Sorted lexLe := by
  induction l with
  | nil => simp [insertPair, List.Sorted]
  | cons y ys ih =>
      unfold insertPair
      rcases List.sorted_cons.mp h with ⟨hy, hys⟩
      by_cases hxy : lexLe x y
      · rw [if_pos hxy]
        refine List.sorted_cons.mpr ⟨?_, h⟩
        intro b hb
        rcases List.mem_cons.mp hb with rfl | hb
        · exact hxy
        · exact lexLe_trans hxy (hy b hb)
      · rw [if_neg hxy]
        refine List.sorted_cons.mpr ⟨?_, ih hys⟩
        intro b hb
        have hb' := (insertPair_perm x ys).mem_iff.mp hb
        rcases List.mem_cons.mp hb' with hbx | hb'
        · rw [hbx]
          rcases lexLe_total x y with h' | h'
          · exact absurd h' hxy
          · exact h'
        · exact hy b hb'

theorem sortPairs_sorted (l : List NbrEntry) : (sortPairs l).Sorted lexLe := by
  induction l with
  | nil => simp [sortPairs, List.Sorted]
  | cons y ys ih => exact insertPair_sorted y ih

/-- `K = 2000`, the hard-coded `k` bound of the `cKDTree.query` calls in
`make_test_split` and `add_overlapping_filter`. -/
def kBound : ℕ := 2000

/-- Padding entry used by `cKDTree.query` when fewer than `k` points
exist: index `n` (one past the last point) and distance `inf`. -/
def padEntry (n : ℕ) : NbrEntry := (n, ⊤)

/-- All points of the table paired with their squared distance to point
`m`, sorted ascending by distance (ties by index): the full neighbor
ranking that `cKDTree.query` draws its first `k` answers from. -/
def nbrEntries (pts : List Pt) (m : ℕ) : List NbrEntry :=
  sortPairs ((List.range pts.length).map
    (fun j => (j, (distSq (pts.getD m (0, 0)) (pts.getD j (0, 0)) : NNInf))))

/-- Row `m` of the `(dist, idx)` matrix of `btree.query(nA, k=K)`: the
`K` nearest entries, padded with `(n, inf)` when fewer than `K` points
exist. -/
def knnRow (pts : List Pt) (m : ℕ) : List NbrEntry :=
  (nbrEntries pts m ++ List.replicate kBound (padEntry pts.length)).take kBound

/-- The inner loop of `make_test_split` over one member's neighbor row:
return the distance to the first listed neighbor outside the cluster
`C`, or — the silent fallback of the source — the `K`-th neighbor's
distance when the whole row lies inside `C` (`elif j == 1999`). -/
def scanRow (C : Finset ℕ) : List NbrEntry → ℕ → NNInf
  | [], _ => ⊤
  | e :: rest, j =>
      if e.1 ∉ C then e.2
      else if j = kBound - 1 then e.2 else scanRow C rest (j + 1)

/-! ## Cluster discovery (the `while len(prev) != 0` closure loop) -/

/-- The overlap neighborhood of observation `k` as a finite set
(`set([gbif_2_ind[a] for a in overlapping_ids[k]])`). -/
def overlapsF (overlaps : ℕ → List ℕ) (k : ℕ) : Finset ℕ := (overlaps k).toFinset

/-- One-to-one image of the source's closure loop:
`curr = N(prev); prev = curr - all_id; all_id ∪= prev`, run while
`prev ≠ ∅`, with enough fuel to reach the fixpoint. -/
def closureAux (overlaps : ℕ → List ℕ) : ℕ → Finset ℕ → Finset ℕ → Finset ℕ
  | 0, _, all => all
  | fuel + 1, prev, all =>
      if prev = ∅ then all
      else
        closureAux overlaps fuel (prev.biUnion (overlapsF overlaps) \ all)
          (all ∪ (prev.biUnion (overlapsF overlaps) \ all))

/-- The cluster (`all_id`) grown from observation `i`: the source seeds
the loop with `prev = N(i)`, `all_id = ∅`.  Fuel `n + 1` suffices
(`closureAux_closed`). -/
def clusterOf (n : ℕ) (overlaps : ℕ → List ℕ) (i : ℕ) : Finset ℕ :=
  closureAux overlaps (n + 1) (overlapsF overlaps i) ∅

/-- Reachability in the overlap graph: the transitive closure that the
loop computes. -/
def OvReach (overlaps : ℕ → List ℕ) (i j : ℕ) : Prop :=
  Relation.ReflTransGen (fun a b => b ∈ overlapsF overlaps a) i j

/-- Well-formedness of the `overlapping_ids` column consumed by
`make_test_split`: each observation lists itself (the source comment
"since we included the ids of the current observation in the
overlapping set"), the lists are symmetric (radius queries are), and
only list observations of the table. -/
structure OvWF (n : ℕ) (overlaps : ℕ → List ℕ) : Prop where
  refl : ∀ a, a < n → a ∈ overlapsF overlaps a
  symm : ∀ a b, a ∈ overlapsF overlaps b ↔ b ∈ overlapsF overlaps a
  bound : ∀ a b, a < n → b ∈ overlapsF overlaps a → b < n

theorem closureAux_empty_prev (overlaps : ℕ → List ℕ) (fuel : ℕ) (a : Finset ℕ) :
    closureAux overlaps fuel ∅ a = a := by
  cases fuel with
  | zero => rfl
  | succ fuel => simp [closureAux]

/-- Main loop invariant of the closure loop: with enough fuel the result
contains seed and accumulator, stays inside the table, and is closed
under the overlap neighborhoods. -/
theorem closureAux_spec {n : ℕ} {overlaps : ℕ → List ℕ}
    (hrefl : ∀ a, a < n → a ∈ overlapsF overlaps a)
    (hbound : ∀ a b, a < n → b ∈ overlapsF overlaps a → b < n) :
    ∀ fuel (p a : Finset ℕ), p ⊆ Finset.range n → a ⊆ Finset.range n →
    (∀ k ∈ a, k ∉ p → overlapsF overlaps k ⊆ a ∪ p) →
    n + 1 ≤ fuel + a.card →
    (a ∪ p ⊆ closureAux overlaps fuel p a) ∧
    (closureAux overlaps fuel p a ⊆ Finset.range n) ∧
    (∀ k ∈ closureAux overlaps fuel p a,
      overlapsF overlaps k ⊆ closureAux overlaps fuel p a) := by
  intro fuel
  induction fuel with
  | zero =>
      intro p a _ ha _ hfuel
      exfalso
      have hcard : a.card ≤ n := by
        simpa using Finset.card_le_card ha
      omega
  | succ fuel ih =>
      intro p a hp ha hNa hfuel
      by_cases hpe : p = ∅
      · subst hpe
        rw [closureAux, if_pos rfl]
        refine ⟨by simp, ha, fun k hk => by simpa using hNa k hk (by simp)⟩
      · rw [closureAux, if_neg hpe]
        set curr := p.biUnion (overlapsF overlaps) with hcurr
        set prev' := curr \ a with hprev'
        have hpn : ∀ k ∈ p, k < n := fun k hk => by
          simpa using hp hk
        have hcsub : curr ⊆ Finset.range n := by
          intro x hx
          rcases Finset.mem_biUnion.mp hx with ⟨k, hk, hxk⟩
          exact Finset.mem_range.mpr (hbound k x (hpn k hk) hxk)
        have hpcurr : p ⊆ curr := by
          intro k hk
          exact Finset.mem_biUnion.mpr ⟨k, hk, hrefl k (hpn k hk)⟩
        have hpa' : p ⊆ a ∪ prev' := by
          intro k hk
          by_cases hka : k ∈ a
          · exact Finset.mem_union_left _ hka
          · exact Finset.mem_union_right _
              (Finset.mem_sdiff.mpr ⟨hpcurr hk, hka⟩)
        have hcurr_sub : curr ⊆ a ∪ prev' := by
          intro x hx
          by_cases hxa : x ∈ a
          · exact Finset.mem_union_left _ hxa
          · exact Finset.mem_union_right _ (Finset.mem_sdiff.mpr ⟨hx, hxa⟩)
        have hNa' : ∀ k ∈ a ∪ prev', k ∉ prev' →
            overlapsF overlaps k ⊆ (a ∪ prev') ∪ prev' := by
          intro k hk hknp
          have hka : k ∈ a := by
            rcases Finset.mem_union.mp hk with h | h
            · exact h
            · exact absurd h hknp
          by_cases hkp : k ∈ p
          · intro x hx
            have : x ∈ curr := Finset.mem_biUnion.mpr ⟨k, hkp, hx⟩
            exact Finset.mem_union_left _ (hcurr_sub this)
          · intro x hx
            have := hNa k hka hkp hx
            rcases Finset.mem_union.mp this with h | h
            · exact Finset.mem_union_left _ (Finset.mem_union_left _ h)
            · exact Finset.mem_union_left _ (hpa' h)
        by_cases hpre : prev' = ∅
        · rw [hpre, closureAux_empty_prev, Finset.union_empty]
          have hpa : p ⊆ a := by
            intro k hk
            have := hpa' hk
            rw [hpre, Finset.union_empty] at this
            exact this
          refine ⟨Finset.union_subset (Finset.Subset.refl a) hpa, ha, ?_⟩
          intro k hk
          have := hNa' k (by rw [hpre, Finset.union_empty]; exact hk)
            (by rw [hpre]; simp)
          rw [hpre] at this
          simpa using this
        · have hssub : a ⊂ a ∪ prev' := by
            rcases Finset.nonempty_iff_ne_empty.mpr hpre with ⟨x, hx⟩
            refine Finset.ssubset_iff_of_subset (Finset.subset_union_left) |>.mpr ?_
            exact ⟨x, Finset.mem_union_right _ hx, (Finset.mem_sdiff.mp hx).2⟩
          have hcard : a.card + 1 ≤ (a ∪ prev').card :=
            Finset.card_lt_card hssub
          have hrec := ih prev' (a ∪ prev')
            (Finset.sdiff_subset.trans hcsub)
            (Finset.union_subset ha ((Finset.sdiff_subset).trans hcsub))
            hNa' (by omega)
          refine ⟨?_, hrec.2.1, hrec.2.2⟩
          intro x hx
          rcases Finset.mem_union.mp hx with h | h
          · exact hrec.1 (Finset.mem_union_left _ (Finset.mem_union_left _ h))
          · exact hrec.1 (Finset.mem_union_left _ (hpa' h))

/-- Everything the closure loop collects is reachable from sets of
reachable seeds. -/
theorem closureAux_reach {overlaps : ℕ → List ℕ} {i : ℕ} :
    ∀ fuel (p a : Finset ℕ), (∀ j ∈ p, OvReach overlaps i j) →
    (∀ j ∈ a, OvReach overlaps i j) →
    ∀ j ∈ closureAux overlaps fuel p a, OvReach overlaps i j := by
  intro fuel
  induction fuel with
  | zero => intro p a _ ha j hj; exact ha j hj
  | succ fuel ih =>
      intro p a hp ha j hj
      by_cases hpe : p = ∅
      · rw [closureAux, if_pos hpe] at hj
        exact ha j hj
      · rw [closureAux, if_neg hpe] at hj
        have hcurr : ∀ x ∈ p.biUnion (overlapsF overlaps), OvReach overlaps i x := by
          intro x hx
          rcases Finset.mem_biUnion.mp hx with ⟨k, hk, hxk⟩
          exact Relation.ReflTransGen.tail (hp k hk) hxk
        refine ih _ _ (fun x hx => hcurr x (Finset.mem_sdiff.mp hx).1)
          (fun x hx => ?_) j hj
        rcases Finset.mem_union.mp hx with h | h
        · exact ha x h
        · exact hcurr x (Finset.mem_sdiff.mp h).1

theorem mem_clusterOf_self {n : ℕ} {overlaps : ℕ → List ℕ} (hwf : OvWF n overlaps)
    {i : ℕ} (hi : i < n) : i ∈ clusterOf n overlaps i := by
  have h := closureAux_spec hwf.refl hwf.bound (n + 1) (overlapsF overlaps i) ∅
    (fun b hb => Finset.mem_range.mpr (hwf.bound i b hi hb))
    (Finset.empty_subset _) (by simp) (by simp)
  exact h.1 (Finset.mem_union_right _ (hwf.refl i hi))

theorem clusterOf_subset_range {n : ℕ} {overlaps : ℕ → List ℕ}
    (hwf : OvWF n overlaps) {i : ℕ} (hi : i < n) :
    clusterOf n overlaps i ⊆ Finset.range n := by
  have h := closureAux_spec hwf.refl hwf.bound (n + 1) (overlapsF overlaps i) ∅
    (fun b hb => Finset.mem_range.mpr (hwf.bound i b hi hb))
    (Finset.empty_subset _) (by simp) (by simp)
  exact h.2.1

theorem clusterOf_closed {n : ℕ} {overlaps : ℕ → List ℕ}
    (hwf : OvWF n overlaps) {i : ℕ} (hi : i < n) :
    ∀ k ∈ clusterOf n overlaps i,
      overlapsF overlaps k ⊆ clusterOf n overlaps i := by
  have h := closureAux_spec hwf.refl hwf.bound (n + 1) (overlapsF overlaps i) ∅
    (fun b hb => Finset.mem_range.mpr (hwf.bound i b hi hb))
    (Finset.empty_subset _) (by simp) (by simp)
  exact h.2.2

theorem clusterOf_neighbors_subset {n : ℕ} {overlaps : ℕ → List ℕ}
    (hwf : OvWF n overlaps) {i : ℕ} (hi : i < n) :
    overlapsF overlaps i ⊆ clusterOf n overlaps i := by
  have h := closureAux_spec hwf.refl hwf.bound (n + 1) (overlapsF overlaps i) ∅
    (fun b hb => Finset.mem_range.mpr (hwf.bound i b hi hb))
    (Finset.empty_subset _) (by simp) (by simp)
  intro x hx
  exact h.1 (Finset.mem_union_right _ hx)

/-- The cluster grown from `i` is exactly the set of observations
reachable from `i` in the overlap graph. -/
theorem clusterOf_eq_reach {n : ℕ} {overlaps : ℕ → List ℕ}
    (hwf : OvWF n overlaps) {i : ℕ} (hi : i < n) :
    ∀ j, j ∈ clusterOf n overlaps i ↔ OvReach overlaps i j := by
  intro j
  constructor
  · intro hj
    refine closureAux_reach (n + 1) (overlapsF overlaps i) ∅ ?_ (by simp) j hj
    intro x hx
    exact Relation.ReflTransGen.single hx
  · intro hj
    induction hj with
    | refl => exact mem_clusterOf_self hwf hi
    | tail _ hstep ih => exact clusterOf_closed hwf hi _ ih hstep

theorem ovReach_symm {n : ℕ} {overlaps : ℕ → List ℕ} (hwf : OvWF n overlaps)
    {a b : ℕ} (h : OvReach overlaps a b) : OvReach overlaps b a := by
  induction h with
  | refl => exact Relation.ReflTransGen.refl
  | tail _ hstep ih =>
      exact Relation.ReflTransGen.head ((hwf.symm _ _).mpr hstep) ih

/-- Clusters are the classes of an equivalence relation: any member of a
cluster grows the same cluster. -/
theorem clusterOf_eq_of_mem {n : ℕ} {overlaps : ℕ → List ℕ}
    (hwf : OvWF n overlaps) {i j : ℕ} (hi : i < n)
    (hj : j ∈ clusterOf n overlaps i) :
    clusterOf n overlaps j = clusterOf n overlaps i := by
  have hjn : j < n := by
    simpa using clusterOf_subset_range hwf hi hj
  have hij : OvReach overlaps i j := (clusterOf_eq_reach hwf hi j).mp hj
  ext k
  rw [clusterOf_eq_reach hwf hjn, clusterOf_eq_reach hwf hi]
  constructor
  · intro h
    exact hij.trans h
  · intro h
    exact (ovReach_symm hwf hij).trans h

/-! ## `make_test_split` state machine -/

/-- Value of the `unif_train_test` column. -/
inductive Label where
  | train : Label
  | test : Label
deriving DecidableEq, Repr

/-- One value of the `train_clusters` / `test_clusters` summary dicts:
`[next_dist, len(all_id), daset.iloc[i][latname], daset.iloc[i][loname]]`.
The lat/lon of the representative row `i` are a function of `rep = i`,
so the model stores the representative index itself. -/
structure CInfo where
  nextDist : NNInf
  size : ℕ
  rep : ℕ
deriving DecidableEq, Repr

/-- Python-dict lookup on an insertion-ordered association list. -/
def dictLookup (d : List (ℕ × CInfo)) (k : ℕ) : Option CInfo :=
  (d.find? (fun e => e.1 == k)).map Prod.snd

/-- Python-dict assignment `d[k] = v`: overwrite in place if the key
exists, else append. -/
def dictSet (d : List (ℕ × CInfo)) (k : ℕ) (v : CInfo) : List (ℕ × CInfo) :=
  if d.any (fun e => e.1 == k) then
    d.map (fun e => if e.1 == k then (k, v) else e)
  else d ++ [(k, v)]

/-- Python-dict deletion `del d[k]`. -/
def dictDel (d : List (ℕ × CInfo)) (k : ℕ) : List (ℕ × CInfo) :=
  d.filter (fun e => !(e.1 == k))

/-- The members of a cluster in ascending index order (one concrete
realization of the iteration order of `list(all_id)`; clusters are
always subsets of `range n`). -/
def memList (n : ℕ) (C : Finset ℕ) : List ℕ :=
  (List.range n).filter (fun j => decide (j ∈ C))

theorem mem_memList {n : ℕ} {C : Finset ℕ} {j : ℕ} :
    j ∈ memList n C ↔ j < n ∧ j ∈ C := by
  unfold memList
  rw [List.mem_filter, List.mem_range, decide_eq_true_iff]

/-- The `dists` list of one cluster: for each member (in the iteration
order of `list(all_id)`) the result of the member's row scan. -/
def clusterDists (pts : List Pt) (C : Finset ℕ) : List NNInf :=
  (memList pts.length C).map (fun m => scanRow C (knnRow pts m) 0)

/-- `next_dist = min(dists)` of one cluster (`⊤` can only arise for an
empty table). -/
def minScanned (pts : List Pt) (C : Finset ℕ) : NNInf :=
  (clusterDists pts C).foldr min ⊤

/-- State threaded through the `for i in range(len(daset))` loop of
`make_test_split`: `seen`, the `train`/`test` id lists (as sets — the
final column write gives `train` priority, see `labelAt`), the two
cluster counters, the two summary dicts, and the `cluster_assgn` /
`next_dists` arrays (as functions; `assgn = -1` and `nextD = none`
model the `-1` fill values). -/
structure PassState where
  seen : Finset ℕ
  trainIds : Finset ℕ
  testIds : Finset ℕ
  ncTrain : ℕ
  ncTest : ℕ
  trainC : List (ℕ × CInfo)
  testC : List (ℕ × CInfo)
  assgn : ℕ → ℤ
  nextD : ℕ → Option NNInf

def initPass : PassState :=
  ⟨∅, ∅, ∅, 0, 0, [], [], fun _ => -1, fun _ => none⟩

/-- One iteration of the cluster loop of `make_test_split`: skip seen
observations, otherwise grow the cluster, compute `next_dist`, and
assign the whole cluster to test (`next_dist > excl_dist`) or train. -/
def passStep (pts : List Pt) (overlaps : ℕ → List ℕ) (exclSq : ℕ)
    (st : PassState) (i : ℕ) : PassState :=
  if i ∈ st.seen then st
  else if (exclSq : NNInf) < minScanned pts (clusterOf pts.length overlaps i) then
    { seen := st.seen ∪ clusterOf pts.length overlaps i,
      trainIds := st.trainIds,
      testIds := st.testIds ∪ clusterOf pts.length overlaps i,
      ncTrain := st.ncTrain,
      ncTest := st.ncTest + 1,
      trainC := st.trainC,
      testC := dictSet st.testC (st.ncTest + 1)
        ⟨minScanned pts (clusterOf pts.length overlaps i),
         (clusterOf pts.length overlaps i).card, i⟩,
      assgn := fun p => if p ∈ clusterOf pts.length overlaps i
        then ((st.ncTest + 1 : ℕ) : ℤ) else st.assgn p,
      nextD := fun p => if p ∈ clusterOf pts.length overlaps i
        then some (scanRow (clusterOf pts.length overlaps i) (knnRow pts p) 0)
        else st.nextD p }
  else
    { seen := st.seen ∪ clusterOf pts.length overlaps i,
      trainIds := st.trainIds ∪ clusterOf pts.length overlaps i,
      testIds := st.testIds,
      ncTrain := st.ncTrain + 1,
      ncTest := st.ncTest,
      trainC := dictSet st.trainC (st.ncTrain + 1)
        ⟨minScanned pts (clusterOf pts.length overlaps i),
         (clusterOf pts.length overlaps i).card, i⟩,
      testC := st.testC,
      assgn := fun p => if p ∈ clusterOf pts.length overlaps i
        then ((st.ncTrain + 1 : ℕ) : ℤ) else st.assgn p,
      nextD := fun p => if p ∈ clusterOf pts.length overlaps i
        then some (scanRow (clusterOf pts.length overlaps i) (knnRow pts p) 0)
        else st.nextD p }

/-- The whole cluster loop of `make_test_split`. -/
def runPass (pts : List Pt) (overlaps : ℕ → List ℕ) (exclSq : ℕ) : PassState :=
  (List.range pts.length).foldl (passStep pts overlaps exclSq) initPass

/-- Materialized `unif_train_test` column: the source writes
`unif[test] = 'test'` and then `unif[train] = 'train'` over a `'Nones'`
fill, so `train` has write priority and unassigned rows stay `none`. -/
def labelAt (st : PassState) (p : ℕ) : Option Label :=
  if p ∈ st.trainIds then some Label.train
  else if p ∈ st.testIds then some Label.test
  else none

/-- State of the rebalancing `while` loop (the observation table's
label column, the immutable `cluster_assgn` column, and the two
summary dicts). -/
structure RState where
  label : ℕ → Option Label
  assgn : ℕ → ℤ
  trainC : List (ℕ × CInfo)
  testC : List (ℕ × CInfo)

def initR (st : PassState) : RState :=
  ⟨labelAt st, st.assgn, st.trainC, st.testC⟩

/-- `len(daset[daset.unif_train_test == 'test'])`. -/
def testCount (n : ℕ) (r : RState) : ℕ :=
  (List.range n).countP (fun p => decide (r.label p = some Label.test))

/-- One rebalancing step: relabel every row of the chosen test cluster
to train (`daset.loc[(test) & (assgn == to_remove)] = 'train'`), copy the
summary entry into `train_clusters` (overwriting any train cluster with
the same id) and delete it from `test_clusters`. -/
def relabelStep (r : RState) (key : ℕ) (v : CInfo) : RState :=
  { label := fun p =>
      if r.label p = some Label.test ∧ r.assgn p = (key : ℤ)
      then some Label.train else r.label p,
    assgn := r.assgn,
    trainC := dictSet r.trainC key v,
    testC := dictDel r.testC key }

/-- The comparison `len(daset[test]) > len(daset) * frac` of the
rebalancing loop, computed on numerator and denominator (equivalent to
the rational comparison by `fracLt_iff`; `frac.den > 0`). -/
def fracLt (n count : ℕ) (frac : ℚ) : Prop :=
  (n : ℤ) * frac.num < (count : ℤ) * (frac.den : ℤ)

instance (n count : ℕ) (frac : ℚ) : Decidable (fracLt n count frac) := by
  unfold fracLt
  infer_instance

/-- The rebalancing `while` loop.  `choose step` selects the position of
`rng.permutation(list(test_clusters.keys()))[0]` among the current keys
(any run of the seeded generator realizes some such function).  `none`
models the `IndexError` of permuting an empty key list (reachable only
for `frac < 0`) and fuel exhaustion (unreachable: every iteration
deletes one key). -/
def rebalanceAux (choose : ℕ → ℕ) (n : ℕ) (frac : ℚ) :
    ℕ → ℕ → RState → Option RState
  | 0, _, _ => none
  | fuel + 1, step, r =>
      if fracLt n (testCount n r) frac then
        match r.testC.map Prod.fst with
        | [] => none
        | k0 :: ks =>
            match dictLookup r.testC
              ((k0 :: ks).getD (choose step % (k0 :: ks).length) 0) with
            | none => none
            | some v =>
                rebalanceAux choose n frac fuel (step + 1)
                  (relabelStep r
                    ((k0 :: ks).getD (choose step % (k0 :: ks).length) 0) v)
      else some r

theorem fracLt_iff (n count : ℕ) (frac : ℚ) :
    fracLt n count frac ↔ (n : ℚ) * frac < (count : ℚ) := by
  unfold fracLt
  have hden : (0 : ℚ) < ((frac.den : ℤ) : ℚ) := by
    exact_mod_cast frac.den_pos
  rw [show (n : ℚ) * frac = ((n * frac.num : ℤ) : ℚ) / ((frac.den : ℤ) : ℚ) by
    push_cast
    rw [mul_div_assoc, Rat.num_div_den]]
  rw [div_lt_iff hden]
  rw [show ((count : ℕ) : ℚ) * ((frac.den : ℤ) : ℚ) =
      (((count : ℤ) * frac.den : ℤ) : ℚ) by push_cast; ring]
  constructor
  · intro h
    exact_mod_cast h
  · intro h
    exact_mod_cast h

/-- `make_test_split` (Build_Data.py:156-307).  Inputs: the projected
points of the (post-filter) table, the `overlapping_ids` column (as
position lists), the imagery resolution (only used by the leading
`assert`), the squared exclusion distance, the test-fraction cap and
the random choice sequence.  The `neighbor_dist` column (line 290) is
not consumed by any claim and is omitted.  `none` models an uncaught
exception. -/
def make_test_split (pts : List Pt) (overlaps : ℕ → List ℕ) (res : ℚ)
    (exclSq : ℕ) (frac : ℚ) (choose : ℕ → ℕ) : Option RState :=
  if mkRat 9 100 ≤ res ∧ res ≤ 30 then
    rebalanceAux choose pts.length frac
      ((runPass pts overlaps exclSq).testC.length + 1) 0
      (initR (runPass pts overlaps exclSq))
  else none

/-! ## `add_overlapping_filter` (the `K`-saturation assert) -/

/-- Kernel-computable ceiling of a rational (`math.ceil`):
`⌈q⌉ = -⌊-q⌋`, with the floor computed by integer division. -/
def ratCeil (q : ℚ) : ℤ := -((-q).num / ((-q).den : ℤ))

theorem ratCeil_eq (q : ℚ) : ratCeil q = ⌈q⌉ := by
  unfold ratCeil
  rw [← Rat.floor_def, Int.floor_neg, neg_neg]

/-- `math.ceil(c * res)` for a natural constant `c`, computed on the
numerator/denominator representation so that it evaluates by kernel
reduction (`ceilMulNat_eq` identifies it with `⌈c * res⌉`). -/
def ceilMulNat (c : ℕ) (res : ℚ) : ℕ :=
  (ratCeil (mkRat (c * res.num) res.den)).toNat

theorem ceilMulNat_eq (c : ℕ) (res : ℚ) :
    ceilMulNat c res = (⌈(c : ℚ) * res⌉).toNat := by
  unfold ceilMulNat
  rw [ratCeil_eq]
  congr 1
  congr 1
  rw [Rat.mkRat_eq_div]
  push_cast
  rw [mul_div_assoc, Rat.num_div_den]

theorem knnRow_length (pts : List Pt) (m : ℕ) :
    (knnRow pts m).length = kBound := by
  unfold knnRow
  rw [List.length_take, List.length_append, List.length_replicate]
  omega

theorem mem_nbrEntries {pts : List Pt} {m r : ℕ} (hr : r < pts.length) :
    (r, (distSq (pts.getD m (0, 0)) (pts.getD r (0, 0)) : NNInf)) ∈
      nbrEntries pts m := by
  unfold nbrEntries
  rw [(sortPairs_perm _).mem_iff]
  exact List.mem_map.mpr ⟨r, List.mem_range.mpr hr, rfl⟩

theorem nbrEntries_dist_ne_top {pts : List Pt} {m : ℕ} {e : NbrEntry}
    (he : e ∈ nbrEntries pts m) : e.2 ≠ ⊤ := by
  unfold nbrEntries at he
  rw [(sortPairs_perm _).mem_iff] at he
  rcases List.mem_map.mp he with ⟨j, _, rfl⟩
  exact WithTop.coe_ne_top

theorem pairwise_replicate_lexLe (k : ℕ) (x : NbrEntry) (hx : lexLe x x) :
    (List.replicate k x).Pairwise lexLe := by
  induction k with
  | zero => simp
  | succ k ih =>
      rw [List.replicate_succ]
      refine List.pairwise_cons.mpr ⟨?_, ih⟩
      intro b hb
      rw [List.eq_of_mem_replicate hb]
      exact hx

/-- The full (entries ++ padding) sequence is sorted. -/
theorem rowFull_sorted (pts : List Pt) (m : ℕ) :
    (nbrEntries pts m ++
      List.replicate kBound (padEntry pts.length)).Sorted lexLe := by
  rw [List.Sorted, List.pairwise_append]
  refine ⟨sortPairs_sorted _, ?_, ?_⟩
  · exact pairwise_replicate_lexLe _ _ (Or.inr ⟨rfl, le_refl _⟩)
  · intro a ha b hb
    rw [List.eq_of_mem_replicate hb]
    left
    exact Ne.lt_top (nbrEntries_dist_ne_top ha)

theorem knnRow_sorted (pts : List Pt) (m : ℕ) :
    (knnRow pts m).Sorted lexLe :=
  List.Pairwise.sublist (List.take_sublist _ _) (rowFull_sorted pts m)

theorem foldr_min_le_of_mem {l : List NNInf} {a : NNInf} (h : a ∈ l) :
    l.foldr min ⊤ ≤ a := by
  induction l with
  | nil => simp at h
  | cons x xs ih =>
      rcases List.mem_cons.mp h with rfl | h
      · exact min_le_left _ _
      · exact le_trans (min_le_right _ _) (ih h)

/-- Core inequality behind the leakage bound: the scan of a full-length
sorted row never reports a value above the distance of any listed
non-member entry, nor above any common upper bound of the whole row. -/
theorem scanRow_le_aux {C : Finset ℕ} {dr : NNInf} :
    ∀ (L : List NbrEntry) (j : ℕ), L ≠ [] → L.length + j = kBound →
    L.Sorted lexLe →
    ((∃ e ∈ L, e.1 ∉ C ∧ e.2 ≤ dr) ∨ (∀ e ∈ L, e.2 ≤ dr)) →
    scanRow C L j ≤ dr := by
  intro L
  induction L with
  | nil => intro j h; exact absurd rfl h
  | cons e rest ih =>
      intro j _ hlen hsort hcase
      rw [scanRow]
      by_cases heC : e.1 ∉ C
      · rw [if_pos heC]
        rcases hcase with ⟨e', he', _, he'dr⟩ | hall
        · rcases List.mem_cons.mp he' with rfl | he'
          · exact he'dr
          · exact le_trans
              (lexLe_dist_le ((List.sorted_cons.mp hsort).1 e' he')) he'dr
        · exact hall e (List.mem_cons_self _ _)
      · rw [if_neg heC]
        push_neg at heC
        rw [List.length_cons] at hlen
        by_cases hj : j = kBound - 1
        · rw [if_pos hj]
          rcases hcase with ⟨e', he', he'C, he'dr⟩ | hall
          · rcases List.mem_cons.mp he' with rfl | he'
            · exact absurd heC he'C
            · have : rest.length = 0 := by
                have hkb : kBound = 2000 := rfl
                omega
              rw [List.length_eq_zero.mp this] at he'
              simp at he'
          · exact hall e (List.mem_cons_self _ _)
        · rw [if_neg hj]
          have hrne : rest ≠ [] := by
            intro hre
            rw [hre] at hlen
            simp at hlen
            have hkb : kBound = 2000 := rfl
            omega
          refine ih (j + 1) hrne (by omega) (List.sorted_cons.mp hsort).2 ?_
          rcases hcase with ⟨e', he', he'C, he'dr⟩ | hall
          · rcases List.mem_cons.mp he' with rfl | he'
            · exact absurd heC he'C
            · exact Or.inl ⟨e', he', he'C, he'dr⟩
          · exact Or.inr fun x hx => hall x (List.mem_cons.mpr (Or.inr hx))

/-- The scan of member `m`'s row is at most the distance from `m` to
any observation outside the cluster. -/
theorem scanRow_le {pts : List Pt} {C : Finset ℕ} {m r : ℕ}
    (hr : r < pts.length) (hrC : r ∉ C) :
    scanRow C (knnRow pts m) 0 ≤
      (distSq (pts.getD m (0, 0)) (pts.getD r (0, 0)) : NNInf) := by
  have hne : knnRow pts m ≠ [] := by
    intro h
    have := knnRow_length pts m
    rw [h] at this
    simp [kBound] at this
  refine scanRow_le_aux (knnRow pts m) 0 hne (by rw [knnRow_length, Nat.add_zero])
    (knnRow_sorted pts m) ?_
  set dr : NNInf := (distSq (pts.getD m (0, 0)) (pts.getD r (0, 0)) : NNInf)
    with hdr
  have hmem : (r, dr) ∈
      nbrEntries pts m ++ List.replicate kBound (padEntry pts.length) :=
    List.mem_append_left _ (mem_nbrEntries hr)
  rw [← List.take_append_drop kBound
    (nbrEntries pts m ++ List.replicate kBound (padEntry pts.length))] at hmem
  rcases List.mem_append.mp hmem with hin | hout
  · exact Or.inl ⟨(r, dr), hin, hrC, le_refl _⟩
  · right
    intro e he
    have hsortfull := rowFull_sorted pts m
    rw [← List.take_append_drop kBound
      (nbrEntries pts m ++ List.replicate kBound (padEntry pts.length)),
      List.Sorted, List.pairwise_append] at hsortfull
    exact lexLe_dist_le (hsortfull.2.2 e he (r, dr) hout)

theorem foldl_inv {σ α : Type} {P : σ → Prop} {step : σ → α → σ}
    {l : List α} {s0 : σ} (h0 : P s0)
    (h : ∀ s a, a ∈ l → P s → P (step s a)) : P (l.foldl step s0) := by
  induction l generalizing s0 with
  | nil => exact h0
  | cons x xs ih =>
      exact ih (h s0 x (List.mem_cons_self _ _) h0)
        (fun s a ha hs => h s a (List.mem_cons.mpr (Or.inr ha)) hs)

theorem passStep_seen_mono (pts : List Pt) (overlaps : ℕ → List ℕ)
    (exclSq : ℕ) (st : PassState) (i : ℕ) :
    st.seen ⊆ (passStep pts overlaps exclSq st i).seen := by
  unfold passStep
  by_cases h : i ∈ st.seen
  · rw [if_pos h]
  · rw [if_neg h]
    by_cases h2 : (exclSq : NNInf) < minScanned pts (clusterOf pts.length overlaps i)
    · rw [if_pos h2]
      exact Finset.subset_union_left
    · rw [if_neg h2]
      exact Finset.subset_union_left

theorem passStep_mem_seen {pts : List Pt} {overlaps : ℕ → List ℕ}
    (hwf : OvWF pts.length overlaps) (exclSq : ℕ) (st : PassState) {i : ℕ}
    (hi : i < pts.length) : i ∈ (passStep pts overlaps exclSq st i).seen := by
  unfold passStep
  by_cases h : i ∈ st.seen
  · rw [if_pos h]; exact h
  · rw [if_neg h]
    by_cases h2 : (exclSq : NNInf) < minScanned pts (clusterOf pts.length overlaps i)
    · rw [if_pos h2]
      exact Finset.mem_union_right _ (mem_clusterOf_self hwf hi)
    · rw [if_neg h2]
      exact Finset.mem_union_right _ (mem_clusterOf_self hwf hi)

theorem foldl_pass_seen_mono (pts : List Pt) (overlaps : ℕ → List ℕ)
    (exclSq : ℕ) (l : List ℕ) (st : PassState) :
    st.seen ⊆ (l.foldl (passStep pts overlaps exclSq) st).seen := by
  induction l generalizing st with
  | nil => exact Finset.Subset.refl _
  | cons x xs ih =>
      exact (passStep_seen_mono pts overlaps exclSq st x).trans (ih _)

theorem runPass_all_seen {pts : List Pt} {overlaps : ℕ → List ℕ}
    (hwf : OvWF pts.length overlaps) (exclSq : ℕ) {p : ℕ}
    (hp : p < pts.length) : p ∈ (runPass pts overlaps exclSq).seen := by
  unfold runPass
  have hgen : ∀ (l : List ℕ) (st : PassState), p ∈ l →
      p ∈ (l.foldl (passStep pts overlaps exclSq) st).seen := by
    intro l
    induction l with
    | nil => intro st h; simp at h
    | cons x xs ih =>
        intro st h
        rcases List.mem_cons.mp h with rfl | h
        · exact foldl_pass_seen_mono pts overlaps exclSq xs _
            (passStep_mem_seen hwf exclSq st hp)
        · exact ih _ h
  exact hgen _ _ (List.mem_range.mpr hp)

/-- The invariant maintained by the cluster loop of `make_test_split`. -/
structure PassInv (pts : List Pt) (overlaps : ℕ → List ℕ) (exclSq : ℕ)
    (st : PassState) : Prop where
  seen_range : st.seen ⊆ Finset.range pts.length
  seen_comp : ∀ p ∈ st.seen, clusterOf pts.length overlaps p ⊆ st.seen
  union_eq : st.trainIds ∪ st.testIds = st.seen
  disj : Disjoint st.trainIds st.testIds
  test_char : ∀ p ∈ st.seen, (p ∈ st.testIds ↔
    (exclSq : NNInf) < minScanned pts (clusterOf pts.length overlaps p))
  assgn_comp : ∀ p ∈ st.seen, ∀ q ∈ clusterOf pts.length overlaps p,
    st.assgn q = st.assgn p
  label_comp : ∀ p ∈ st.seen, ∀ q ∈ clusterOf pts.length overlaps p,
    (q ∈ st.testIds ↔ p ∈ st.testIds)
  testC_keys : ∀ e ∈ st.testC, e.1 ≤ st.ncTest
  test_key : ∀ p ∈ st.testIds, ∃ e ∈ st.testC, st.assgn p = (e.1 : ℤ)

theorem passInv_init (pts : List Pt) (overlaps : ℕ → List ℕ) (exclSq : ℕ) :
    PassInv pts overlaps exclSq initPass := by
  constructor <;> simp [initPass]

theorem dictSet_fresh {d : List (ℕ × CInfo)} {k : ℕ} (v : CInfo)
    (h : ∀ e ∈ d, e.1 ≠ k) : dictSet d k v = d ++ [(k, v)] := by
  unfold dictSet
  rw [if_neg]
  intro hc
  rw [List.any_eq_true] at hc
  obtain ⟨e, he, hek⟩ := hc
  exact h e he (by simpa using hek)

theorem passInv_step {pts : List Pt} {overlaps : ℕ → List ℕ} {exclSq : ℕ}
    (hwf : OvWF pts.length overlaps) {st : PassState}
    (hst : PassInv pts overlaps exclSq st) {i : ℕ} (hi : i < pts.length) :
    PassInv pts overlaps exclSq (passStep pts overlaps exclSq st i) := by
  unfold passStep
  by_cases hseen : i ∈ st.seen
  · rw [if_pos hseen]; exact hst
  · rw [if_neg hseen]
    have hCr : clusterOf pts.length overlaps i ⊆ Finset.range pts.length :=
      clusterOf_subset_range hwf hi
    have hCeq : ∀ q ∈ clusterOf pts.length overlaps i,
        clusterOf pts.length overlaps q = clusterOf pts.length overlaps i :=
      fun q hq => clusterOf_eq_of_mem hwf hi hq
    have hiC : i ∈ clusterOf pts.length overlaps i := mem_clusterOf_self hwf hi
    have hCnotseen : ∀ p ∈ clusterOf pts.length overlaps i, p ∉ st.seen := by
      intro p hp hps
      exact hseen (hst.seen_comp p hps (by rw [hCeq p hp]; exact hiC))
    have hseenC : ∀ p ∈ st.seen, p ∉ clusterOf pts.length overlaps i :=
      fun p hp hpc => hCnotseen p hpc hp
    have htrain_seen : st.trainIds ⊆ st.seen := by
      rw [← hst.union_eq]; exact Finset.subset_union_left
    have htest_seen : st.testIds ⊆ st.seen := by
      rw [← hst.union_eq]; exact Finset.subset_union_right
    by_cases hbr : (exclSq : NNInf) <
        minScanned pts (clusterOf pts.length overlaps i)
    · rw [if_pos hbr]
      have hfresh : ∀ e ∈ st.testC, e.1 ≠ st.ncTest + 1 := by
        intro e he
        have := hst.testC_keys e he
        omega
      refine ⟨?_, ?_, ?_, ?_, ?_, ?_, ?_, ?_, ?_⟩
      · exact Finset.union_subset hst.seen_range hCr
      · intro p hp
        rcases Finset.mem_union.mp hp with hp | hp
        · exact (hst.seen_comp p hp).trans Finset.subset_union_left
        · rw [hCeq p hp]
          exact Finset.subset_union_right
      · show st.trainIds ∪ (st.testIds ∪ _) = st.seen ∪ _
        rw [← Finset.union_assoc, hst.union_eq]
      · show Disjoint st.trainIds (st.testIds ∪ _)
        rw [Finset.disjoint_union_right]
        refine ⟨hst.disj, Finset.disjoint_left.mpr ?_⟩
        intro p hp hpc
        exact hseenC p (htrain_seen hp) hpc
      · intro p hp
        show p ∈ st.testIds ∪ _ ↔ _
        rcases Finset.mem_union.mp hp with hp | hp
        · have hpC := hseenC p hp
          rw [Finset.mem_union]
          constructor
          · intro h
            rcases h with h | h
            · exact (hst.test_char p hp).mp h
            · exact absurd h hpC
          · intro h
            exact Or.inl ((hst.test_char p hp).mpr h)
        · rw [hCeq p hp]
          exact iff_of_true (Finset.mem_union_right _ hp) hbr
      · intro p hp q hq
        rcases Finset.mem_union.mp hp with hp | hp
        · have hqseen : q ∈ st.seen := hst.seen_comp p hp hq
          show (if q ∈ _ then _ else st.assgn q) =
            (if p ∈ _ then _ else st.assgn p)
          rw [if_neg (hseenC q hqseen), if_neg (hseenC p hp)]
          exact hst.assgn_comp p hp q hq
        · rw [hCeq p hp] at hq
          show (if q ∈ _ then _ else st.assgn q) =
            (if p ∈ _ then _ else st.assgn p)
          rw [if_pos hq, if_pos hp]
      · intro p hp q hq
        show q ∈ st.testIds ∪ _ ↔ p ∈ st.testIds ∪ _
        rcases Finset.mem_union.mp hp with hp | hp
        · have hqseen : q ∈ st.seen := hst.seen_comp p hp hq
          rw [Finset.mem_union, Finset.mem_union]
          constructor
          · intro h
            rcases h with h | h
            · exact Or.inl ((hst.label_comp p hp q hq).mp h)
            · exact absurd h (hseenC q hqseen)
          · intro h
            rcases h with h | h
            · exact Or.inl ((hst.label_comp p hp q hq).mpr h)
            · exact absurd h (hseenC p hp)
        · rw [hCeq p hp] at hq
          exact iff_of_true (Finset.mem_union_right _ hq)
            (Finset.mem_union_right _ hp)
      · intro e he
        show e.1 ≤ st.ncTest + 1
        rw [dictSet_fresh _ hfresh] at he
        rcases List.mem_append.mp he with he | he
        · have := hst.testC_keys e he
          omega
        · rcases List.mem_singleton.mp he with rfl
          rfl
      · intro p hp
        rcases Finset.mem_union.mp hp with hp | hp
        · obtain ⟨e, he, heq⟩ := hst.test_key p hp
          refine ⟨e, ?_, ?_⟩
          · rw [dictSet_fresh _ hfresh]
            exact List.mem_append_left _ he
          · show (if p ∈ _ then _ else st.assgn p) = _
            rw [if_neg (hseenC p (htest_seen hp))]
            exact heq
        · refine ⟨(st.ncTest + 1,
            ⟨minScanned pts (clusterOf pts.length overlaps i),
             (clusterOf pts.length overlaps i).card, i⟩), ?_, ?_⟩
          · rw [dictSet_fresh _ hfresh]
            exact List.mem_append_right _ (List.mem_singleton.mpr rfl)
          · show (if p ∈ _ then _ else st.assgn p) = _
            rw [if_pos hp]
    · rw [if_neg hbr]
      refine ⟨?_, ?_, ?_, ?_, ?_, ?_, ?_, ?_, ?_⟩
      · exact Finset.union_subset hst.seen_range hCr
      · intro p hp
        rcases Finset.mem_union.mp hp with hp | hp
        · exact (hst.seen_comp p hp).trans Finset.subset_union_left
        · rw [hCeq p hp]
          exact Finset.subset_union_right
      · show st.trainIds ∪ _ ∪ st.testIds = st.seen ∪ _
        rw [Finset.union_right_comm, hst.union_eq]
      · show Disjoint (st.trainIds ∪ _) st.testIds
        rw [Finset.disjoint_union_left]
        refine ⟨hst.disj, Finset.disjoint_left.mpr ?_⟩
        intro p hp hpt
        exact hseenC p (htest_seen hpt) hp
      · intro p hp
        show p ∈ st.testIds ↔ _
        rcases Finset.mem_union.mp hp with hp | hp
        · exact hst.test_char p hp
        · rw [hCeq p hp]
          exact iff_of_false (fun h => hseenC p (htest_seen h) hp) hbr
      · intro p hp q hq
        rcases Finset.mem_union.mp hp with hp | hp
        · have hqseen : q ∈ st.seen := hst.seen_comp p hp hq
          show (if q ∈ _ then _ else st.assgn q) =
            (if p ∈ _ then _ else st.assgn p)
          rw [if_neg (hseenC q hqseen), if_neg (hseenC p hp)]
          exact hst.assgn_comp p hp q hq
        · rw [hCeq p hp] at hq
          show (if q ∈ _ then _ else st.assgn q) =
            (if p ∈ _ then _ else st.assgn p)
          rw [if_pos hq, if_pos hp]
      · intro p hp q hq
        show q ∈ st.testIds ↔ p ∈ st.testIds
        rcases Finset.mem_union.mp hp with hp | hp
        · exact hst.label_comp p hp q hq
        · rw [hCeq p hp] at hq
          exact iff_of_false (fun h => hseenC q (htest_seen h) hq)
            (fun h => hseenC p (htest_seen h) hp)
      · intro e he
        exact hst.testC_keys e he
      · intro p hp
        obtain ⟨e, he, heq⟩ := hst.test_key p hp
        refine ⟨e, he, ?_⟩
        show (if p ∈ _ then _ else st.assgn p) = _
        rw [if_neg (hseenC p (htest_seen hp))]
        exact heq

theorem runPass_inv {pts : List Pt} {overlaps : ℕ → List ℕ} {exclSq : ℕ}
    (hwf : OvWF pts.length overlaps) :
    PassInv pts overlaps exclSq (runPass pts overlaps exclSq) := by
  unfold runPass
  refine foldl_inv (passInv_init pts overlaps exclSq) ?_
  intro s a ha hs
  exact passInv_step hwf hs (List.mem_range.mp ha)

/-! ## Rebalancing-loop lemmas -/

theorem labelAt_test_iff {pts : List Pt} {overlaps : ℕ → List ℕ} {exclSq : ℕ}
    {st : PassState} (hst : PassInv pts overlaps exclSq st) (p : ℕ) :
    labelAt st p = some Label.test ↔ p ∈ st.testIds := by
  unfold labelAt
  constructor
  · intro h
    by_cases htr : p ∈ st.trainIds
    · rw [if_pos htr] at h
      simp at h
    · rw [if_neg htr] at h
      by_cases hte : p ∈ st.testIds
      · exact hte
      · rw [if_neg hte] at h
        simp at h
  · intro h
    rw [if_neg (Finset.disjoint_right.mp hst.disj h), if_pos h]

theorem labelAt_train_iff {st : PassState} (p : ℕ) :
    labelAt st p = some Label.train ↔ p ∈ st.trainIds := by
  unfold labelAt
  constructor
  · intro h
    by_cases htr : p ∈ st.trainIds
    · exact htr
    · rw [if_neg htr] at h
      by_cases hte : p ∈ st.testIds
      · rw [if_pos hte] at h
        simp at h
      · rw [if_neg hte] at h
        simp at h
  · intro h
    rw [if_pos h]

theorem labelAt_none_iff {st : PassState} (p : ℕ) :
    labelAt st p = none ↔ p ∉ st.trainIds ∧ p ∉ st.testIds := by
  unfold labelAt
  by_cases htr : p ∈ st.trainIds
  · rw [if_pos htr]
    simp [htr]
  · rw [if_neg htr]
    by_cases hte : p ∈ st.testIds
    · rw [if_pos hte]
      simp [htr, hte]
    · rw [if_neg hte]
      simp [htr, hte]

theorem relabelStep_test {r : RState} {key : ℕ} {v : CInfo} {p : ℕ}
    (h : (relabelStep r key v).label p = some Label.test) :
    r.label p = some Label.test := by
  simp only [relabelStep] at h
  by_cases hc : r.label p = some Label.test ∧ r.assgn p = (key : ℤ)
  · rw [if_pos hc] at h
    simp at h
  · rw [if_neg hc] at h
    exact h

theorem relabelStep_train {r : RState} {key : ℕ} {v : CInfo} {p : ℕ}
    (h : r.label p = some Label.train) :
    (relabelStep r key v).label p = some Label.train := by
  simp only [relabelStep]
  rw [if_neg]
  · exact h
  · intro hc
    rw [hc.1] at h
    simp at h

theorem relabelStep_none {r : RState} {key : ℕ} {v : CInfo} (p : ℕ) :
    (relabelStep r key v).label p = none ↔ r.label p = none := by
  simp only [relabelStep]
  by_cases hc : r.label p = some Label.test ∧ r.assgn p = (key : ℤ)
  · rw [if_pos hc]
    simp [hc.1]
  · rw [if_neg hc]

theorem relabelStep_assgn (r : RState) (key : ℕ) (v : CInfo) :
    (relabelStep r key v).assgn = r.assgn := rfl

theorem countP_mono_pred {l : List ℕ} {p q : ℕ → Bool}
    (h : ∀ a ∈ l, p a = true → q a = true) : l.countP p ≤ l.countP q := by
  induction l with
  | nil => simp
  | cons x xs ih =>
      rw [List.countP_cons, List.countP_cons]
      have hxs := ih (fun a ha => h a (List.mem_cons.mpr (Or.inr ha)))
      by_cases hx : p x = true
      · rw [if_pos hx, if_pos (h x (List.mem_cons_self _ _) hx)]
        omega
      · rw [if_neg hx]
        have ht : 0 ≤ (if q x = true then 1 else 0) := Nat.zero_le _
        omega

theorem relabelStep_testCount {n : ℕ} (r : RState) (key : ℕ) (v : CInfo) :
    testCount n (relabelStep r key v) ≤ testCount n r := by
  unfold testCount
  refine countP_mono_pred ?_
  intro a _ ha
  rw [decide_eq_true_iff] at ha ⊢
  exact relabelStep_test ha

/-- Cluster coherence of the label and assignment columns, as preserved
by rebalancing. -/
def RCoh (n : ℕ) (overlaps : ℕ → List ℕ) (r : RState) : Prop :=
  ∀ p q, p < n → q ∈ clusterOf n overlaps p →
    r.label q = r.label p ∧ r.assgn q = r.assgn p

theorem relabelStep_rcoh {n : ℕ} {overlaps : ℕ → List ℕ} {r : RState}
    (hr : RCoh n overlaps r) (key : ℕ) (v : CInfo) :
    RCoh n overlaps (relabelStep r key v) := by
  intro p q hp hq
  obtain ⟨hl, ha⟩ := hr p q hp hq
  simp only [relabelStep]
  rw [hl, ha]
  exact ⟨rfl, rfl⟩

/-- Combined facts about a successful run of the rebalancing loop:
labels only move from test to train, the test count never grows, the
assignment column and cluster coherence are preserved, and on exit the
test count is within the cap. -/
theorem rebalanceAux_spec {choose : ℕ → ℕ} {n : ℕ} {frac : ℚ}
    {overlaps : ℕ → List ℕ} :
    ∀ fuel step (r r' : RState),
    rebalanceAux choose n frac fuel step r = some r' →
    (∀ p, r'.label p = some Label.test → r.label p = some Label.test) ∧
    (∀ p, r.label p = some Label.train → r'.label p = some Label.train) ∧
    (∀ p, r'.label p = none ↔ r.label p = none) ∧
    r'.assgn = r.assgn ∧
    testCount n r' ≤ testCount n r ∧
    (RCoh n overlaps r → RCoh n overlaps r') ∧
    ¬((n : ℚ) * frac < (testCount n r' : ℚ)) := by
  intro fuel
  induction fuel with
  | zero =>
      intro step r r' h
      exact absurd h (by rw [rebalanceAux]; simp)
  | succ fuel ih =>
      intro step r r' h
      rw [rebalanceAux] at h
      by_cases hcond : fracLt n (testCount n r) frac
      · rw [if_pos hcond] at h
        split at h
        · exact absurd h (by simp)
        · split at h
          · exact absurd h (by simp)
          · rename_i k0 ks hks v hv
            obtain ⟨h1, h2, h3, h4, h5, h6, h7⟩ := ih (step + 1) _ r' h
            refine ⟨?_, ?_, ?_, ?_, ?_, ?_, h7⟩
            · intro p hp
              exact relabelStep_test (h1 p hp)
            · intro p hp
              exact h2 p (relabelStep_train hp)
            · intro p
              exact (h3 p).trans (relabelStep_none p)
            · rw [h4, relabelStep_assgn]
            · exact le_trans h5 (relabelStep_testCount r _ _)
            · intro hc
              exact h6 (relabelStep_rcoh hc _ _)
      · rw [if_neg hcond] at h
        obtain rfl : r = r' := Option.some.inj h
        exact ⟨fun p hp => hp, fun p hp => hp, fun p => Iff.rfl, rfl,
          le_refl _, fun hc => hc,
          fun hlt => hcond ((fracLt_iff n (testCount n r) frac).mpr hlt)⟩

/-- When the initial test count is already within the cap the loop body
never runs: the state is returned unchanged. -/
theorem rebalanceAux_noop {choose : ℕ → ℕ} {n : ℕ} {frac : ℚ} {fuel step : ℕ}
    {r : RState} (h : ¬((n : ℚ) * frac < (testCount n r : ℚ))) :
    rebalanceAux choose n frac (fuel + 1) step r = some r := by
  rw [rebalanceAux,
    if_neg (fun hc => h ((fracLt_iff n (testCount n r) frac).mp hc))]

/-! ## Main theorems about `make_test_split` -/

theorem make_test_split_guard {pts : List Pt} {overlaps : ℕ → List ℕ}
    {res frac : ℚ} {exclSq : ℕ} {choose : ℕ → ℕ} {out : RState}
    (hrun : make_test_split pts overlaps res exclSq frac choose = some out) :
    rebalanceAux choose pts.length frac
      ((runPass pts overlaps exclSq).testC.length + 1) 0
      (initR (runPass pts overlaps exclSq)) = some out := by
  unfold make_test_split at hrun
  by_cases hres : mkRat 9 100 ≤ res ∧ res ≤ 30
  · rwa [if_pos hres] at hrun
  · rw [if_neg hres] at hrun
    exact absurd hrun (by simp)

theorem runPass_rcoh {pts : List Pt} {overlaps : ℕ → List ℕ} {exclSq : ℕ}
    (hwf : OvWF pts.length overlaps) :
    RCoh pts.length overlaps (initR (runPass pts overlaps exclSq)) := by
  intro p q hp hq
  have hst := @runPass_inv pts overlaps exclSq hwf
  have hpseen := runPass_all_seen hwf exclSq hp
  have hqseen : q ∈ (runPass pts overlaps exclSq).seen :=
    hst.seen_comp p hpseen hq
  constructor
  · show labelAt _ q = labelAt _ p
    by_cases hpt : p ∈ (runPass pts overlaps exclSq).testIds
    · have hqt := (hst.label_comp p hpseen q hq).mpr hpt
      rw [(labelAt_test_iff hst q).mpr hqt, (labelAt_test_iff hst p).mpr hpt]
    · have hqt : q ∉ (runPass pts overlaps exclSq).testIds :=
        fun h => hpt ((hst.label_comp p hpseen q hq).mp h)
      have hptr : p ∈ (runPass pts overlaps exclSq).trainIds := by
        have := hst.union_eq ▸ hpseen
        rcases Finset.mem_union.mp this with h | h
        · exact h
        · exact absurd h hpt
      have hqtr : q ∈ (runPass pts overlaps exclSq).trainIds := by
        have := hst.union_eq ▸ hqseen
        rcases Finset.mem_union.mp this with h | h
        · exact h
        · exact absurd h hqt
      rw [(labelAt_train_iff q).mpr hqtr, (labelAt_train_iff p).mpr hptr]
  · exact hst.assgn_comp p hpseen q hq

/-- C1: every pair of a finally-test-labeled and a finally-train-labeled
observation is separated by strictly more than the exclusion distance
(squared comparison), with no exception needed for rebalanced clusters:
relabeling moves whole clusters, so a surviving test observation is
never in a relabeled cluster. -/
theorem C1_leakage_bound {pts : List Pt} {overlaps : ℕ → List ℕ}
    {res frac : ℚ} {exclSq : ℕ} {choose : ℕ → ℕ} {out : RState} {t r : ℕ}
    (hwf : OvWF pts.length overlaps)
    (hrun : make_test_split pts overlaps res exclSq frac choose = some out)
    (ht : out.label t = some Label.test)
    (hr : out.label r = some Label.train) :
    exclSq < distSq (pts.getD t (0, 0)) (pts.getD r (0, 0)) := by
  have hreb := make_test_split_guard hrun
  have hspec := @rebalanceAux_spec _ _ _ overlaps _ _ _ _ hreb
  have hst := @runPass_inv pts overlaps exclSq hwf
  -- t was a test observation before rebalancing
  have htpre : labelAt (runPass pts overlaps exclSq) t = some Label.test :=
    hspec.1 t ht
  have htT : t ∈ (runPass pts overlaps exclSq).testIds :=
    (labelAt_test_iff hst t).mp htpre
  have htseen : t ∈ (runPass pts overlaps exclSq).seen := by
    rw [← hst.union_eq]
    exact Finset.mem_union_right _ htT
  have htn : t < pts.length := by
    simpa using hst.seen_range htseen
  have hchar : (exclSq : NNInf) <
      minScanned pts (clusterOf pts.length overlaps t) :=
    (hst.test_char t htseen).mp htT
  -- r is outside t's cluster (labels are cluster-coherent after rebalance)
  have hrcoh : RCoh pts.length overlaps out := hspec.2.2.2.2.2.1 (runPass_rcoh hwf)
  have hrC : r ∉ clusterOf pts.length overlaps t := by
    intro hmem
    have := (hrcoh t r htn hmem).1
    rw [ht, hr] at this
    simp at this
  have hrn : r < pts.length := by
    have hrnon : out.label r ≠ none := by
      rw [hr]; simp
    have : labelAt (runPass pts overlaps exclSq) r ≠ none :=
      fun h => hrnon ((hspec.2.2.1 r).mpr h)
    rw [Ne, labelAt_none_iff] at this
    push_neg at this
    by_cases htr : r ∈ (runPass pts overlaps exclSq).trainIds
    · have : r ∈ (runPass pts overlaps exclSq).seen := by
        rw [← hst.union_eq]
        exact Finset.mem_union_left _ htr
      simpa using hst.seen_range this
    · have : r ∈ (runPass pts overlaps exclSq).seen := by
        rw [← hst.union_eq]
        exact Finset.mem_union_right _ (this htr)
      simpa using hst.seen_range this
  -- chain the inequalities through t's own row scan
  have hmem : scanRow (clusterOf pts.length overlaps t) (knnRow pts t) 0 ∈
      clusterDists pts (clusterOf pts.length overlaps t) := by
    unfold clusterDists
    refine List.mem_map.mpr ⟨t, ?_, rfl⟩
    exact mem_memList.mpr ⟨htn, mem_clusterOf_self hwf htn⟩
  have h1 : minScanned pts (clusterOf pts.length overlaps t) ≤
      scanRow (clusterOf pts.length overlaps t) (knnRow pts t) 0 :=
    foldr_min_le_of_mem hmem
  have h2 := @scanRow_le pts (clusterOf pts.length overlaps t) t _ hrn hrC
  have := lt_of_lt_of_le (lt_of_lt_of_le hchar h1) h2
  exact_mod_cast this

/-- C3: the discovered clusters partition the table (every observation
lies in its own cluster and clusters of members coincide), every
observation receives a train/test label, and labels and cluster ids are
constant on every cluster, also after rebalancing. -/
theorem C3_partition_coherence {pts : List Pt} {overlaps : ℕ → List ℕ}
    {res frac : ℚ} {exclSq : ℕ} {choose : ℕ → ℕ} {out : RState}
    (hwf : OvWF pts.length overlaps)
    (hrun : make_test_split pts overlaps res exclSq frac choose = some out) :
    (∀ p, p < pts.length → p ∈ clusterOf pts.length overlaps p) ∧
    (∀ p q, p < pts.length → q ∈ clusterOf pts.length overlaps p →
      clusterOf pts.length overlaps q = clusterOf pts.length overlaps p) ∧
    (∀ p, p < pts.length → ∃ l, out.label p = some l) ∧
    (∀ p q, p < pts.length → q ∈ clusterOf pts.length overlaps p →
      out.label q = out.label p ∧ out.assgn q = out.assgn p) := by
  have hreb := make_test_split_guard hrun
  have hspec := @rebalanceAux_spec _ _ _ overlaps _ _ _ _ hreb
  have hst := @runPass_inv pts overlaps exclSq hwf
  refine ⟨?_, ?_, ?_, ?_⟩
  · intro p hp
    exact mem_clusterOf_self hwf hp
  · intro p q hp hq
    exact clusterOf_eq_of_mem hwf hp hq
  · intro p hp
    have hseen := runPass_all_seen hwf exclSq hp
    have hlab : labelAt (runPass pts overlaps exclSq) p ≠ none := by
      rw [Ne, labelAt_none_iff]
      push_neg
      intro htr
      have := hst.union_eq ▸ hseen
      rcases Finset.mem_union.mp this with h | h
      · exact absurd h htr
      · exact h
    have : out.label p ≠ none := fun h => hlab ((hspec.2.2.1 p).mp h)
    rcases hv : out.label p with _ | l
    · exact absurd hv this
    · exact ⟨l, rfl⟩
  · intro p q hp hq
    exact hspec.2.2.2.2.2.1 (runPass_rcoh hwf) p q hp hq

/-- C5: rebalancing only moves labels from test to train, never
increases the test count, leaves the split untouched when the initial
test fraction is within the cap, and on success ends with the test
count within the cap. -/
theorem C5_rebalance_monotone {pts : List Pt} {overlaps : ℕ → List ℕ}
    {res frac : ℚ} {exclSq : ℕ} {choose : ℕ → ℕ} {out : RState}
    (hrun : make_test_split pts overlaps res exclSq frac choose = some out) :
    (∀ p, out.label p = some Label.test →
      (initR (runPass pts overlaps exclSq)).label p = some Label.test) ∧
    (∀ p, (initR (runPass pts overlaps exclSq)).label p = some Label.train →
      out.label p = some Label.train) ∧
    testCount pts.length out ≤
      testCount pts.length (initR (runPass pts overlaps exclSq)) ∧
    ((testCount pts.length (initR (runPass pts overlaps exclSq)) : ℚ) ≤
        (pts.length : ℚ) * frac →
      out = initR (runPass pts overlaps exclSq)) ∧
    (testCount pts.length out : ℚ) ≤ (pts.length : ℚ) * frac := by
  have hreb := make_test_split_guard hrun
  have hspec := @rebalanceAux_spec _ _ _ overlaps _ _ _ _ hreb
  refine ⟨hspec.1, hspec.2.1, hspec.2.2.2.2.1, ?_, ?_⟩
  · intro hle
    have hnoop := @rebalanceAux_noop choose _ _
      ((runPass pts overlaps exclSq).testC.length) 0
      (initR (runPass pts overlaps exclSq)) (not_lt.mpr hle)
    rw [hnoop] at hreb
    exact (Option.some.inj hreb).symm
  · exact not_lt.mp hspec.2.2.2.2.2.2

def expts : List Pt := [(0, 0), (100, 0), (500, 0), (10000, 0)]

/-- The `overlapping_ids` column matching `expts` under the 256 m
radius: observations 0 and 1 overlap each other, 2 and 3 only
themselves. -/
def exov : ℕ → List ℕ := fun i => if i < 2 then [0, 1] else [i]

theorem exov_wf : OvWF expts.length exov := by
  constructor
  · intro a _
    by_cases h : a < 2
    · simp [overlapsF, exov, h]
      omega
    · simp [overlapsF, exov, h]
  · intro a b
    by_cases ha : a < 2 <;> by_cases hb : b < 2 <;>
      simp [overlapsF, exov, ha, hb] <;> omega
  · intro a b ha hb
    by_cases h : a < 2
    · simp [overlapsF, exov, h] at hb
      have : expts.length = 4 := rfl
      omega
    · simp [overlapsF, exov, h] at hb
      have : expts.length = 4 := rfl
      omega

theorem C1_leakage_bound_witness :
    (1690000 : ℕ) < distSq (expts.getD 3 (0, 0)) (expts.getD 0 (0, 0)) := by
  have hm : (make_test_split expts exov 1 1690000 (mkRat 1 2) (fun _ => 0)).map
      (fun r => (r.label 3, r.label 0)) =
      some (some Label.test, some Label.train) := by decide
  rw [Option.map_eq_some'] at hm
  obtain ⟨out, hout, hpair⟩ := hm
  exact C1_leakage_bound exov_wf hout (congrArg Prod.fst hpair)
    (congrArg Prod.snd hpair)

theorem C3_partition_coherence_witness :
    clusterOf expts.length exov 1 = clusterOf expts.length exov 0 := by
  have hm : (make_test_split expts exov 1 1690000 (mkRat 1 2) (fun _ => 0)).map
      (fun _ => true) = some true := by decide
  rw [Option.map_eq_some'] at hm
  obtain ⟨out, hout, _⟩ := hm
  exact (C3_partition_coherence exov_wf hout).2.1 0 1 (by decide) (by decide)

theorem C5_rebalance_monotone_witness :
    testCount expts.length (initR (runPass expts exov 1690000)) = 1 ∧
    (make_test_split expts exov 1 1690000 (mkRat 1 10) (fun _ => 0)).map
      (fun r => testCount expts.length r) = some 0 := by
  refine ⟨by decide, ?_⟩
  have hm : (make_test_split expts exov 1 1690000 (mkRat 1 10) (fun _ => 0)).map
      (fun _ => true) = some true := by decide
  rw [Option.map_eq_some'] at hm
  obtain ⟨out, hout, _⟩ := hm
  rw [hout]
  have h5 := C5_rebalance_monotone hout
  have hle : (testCount expts.length out : ℚ) ≤
      (expts.length : ℚ) * mkRat 1 10 := h5.2.2.2.2
  have hlen : ((expts.length : ℚ)) * mkRat 1 10 = mkRat 2 5 := by
    rw [Rat.mkRat_eq_div, Rat.mkRat_eq_div]
    norm_num [expts]
  have hsmall : (mkRat 2 5 : ℚ) < 1 := by
    rw [Rat.mkRat_eq_div]
    norm_num
  have hz : testCount expts.length out = 0 := by
    by_contra hne
    have h1 : (1 : ℚ) ≤ (testCount expts.length out : ℚ) := by
      exact_mod_cast Nat.one_le_iff_ne_zero.mpr hne
    rw [hlen] at hle
    linarith
  simp only [Option.map_some']
  rw [hz]

/-- C9: train and test cluster ids are two independent counters both
starting at 1.  On `expts` the pass produces train clusters 1, 2 and
test cluster 1; rebalancing with cap 1/10 relabels test cluster 1 and
its summary overwrites the entry of train cluster 1 (whose original
value `{next_dist 160000², size 2, rep 0}` is lost). -/
theorem C9_cluster_id_collision :
    (runPass expts exov 1690000).trainC =
      [(1, ⟨(160000 : ℕ), 2, 0⟩), (2, ⟨(160000 : ℕ), 1, 2⟩)] ∧
    (runPass expts exov 1690000).testC = [(1, ⟨(90250000 : ℕ), 1, 3⟩)] ∧
    (make_test_split expts exov 1 1690000 (mkRat 1 10) (fun _ => 0)).map
        (fun r => r.trainC) =
      some [(1, ⟨(90250000 : ℕ), 1, 3⟩), (2, ⟨(160000 : ℕ), 1, 2⟩)] ∧
    (make_test_split expts exov 1 1690000 (mkRat 1 10) (fun _ => 0)).map
        (fun r => r.testC) = some [] := by
  refine ⟨by decide, by decide, by decide, by decide⟩

/-! ## Saturating input: a 2000-point blob plus one distant point

`K = 2000` observations at the origin and one at x = 2000 m.  Every
blob member's `K`-nearest row consists of blob members only, so the
`elif j == 1999` fallback fires for every member. -/

abbrev Obs := ℕ × Pt

def obsDefault : Obs := (0, ((0 : ℤ), (0 : ℤ)))

def spOf (t : List Obs) (i : ℕ) : ℕ := (t.getD i obsDefault).1

def ptOf (t : List Obs) (i : ℕ) : Pt := (t.getD i obsDefault).2

def speciesCount (t : List Obs) (s : ℕ) : ℕ := t.countP (fun r => decide (r.1 = s))

def groupIds (t : List Obs) (s : ℕ) : List ℕ :=
  (List.range t.length).filter (fun i => decide (spOf t i = s))

def groupPts (t : List Obs) (s : ℕ) : List Pt := (groupIds t s).map (ptOf t)

-- `(dist[:,1:] <= overlapped).sum(axis=1).max() == len(group)` at line 924:
-- drop the first (self) column of each sorted row, count entries within the
-- radius, and compare the max row count with the group size.
def singletonFlag (pts : List Pt) (ov : ℕ) : Bool :=
  decide ((((List.range pts.length).map (fun i =>
    ((nbrEntries pts i).drop 1).countP
      (fun e => decide (e.2 ≤ ((ov ^ 2 : ℕ) : NNInf))))).foldr max 0) = pts.length)

structure DupState where
  dups : List ℕ
  ignore : List ℕ
deriving DecidableEq

def grpRows (pts : List Pt) : List (List NbrEntry) :=
  (List.range pts.length).map (fun i => nbrEntries pts i)

-- One iteration of the loop at lines 933-958: skip visited indices, count
-- the in-radius prefix, and drop all / middle duplicates per the two branches.
def dupStep (rows : List (List NbrEntry)) (d75 d150 : ℕ)
    (st : DupState) (i : ℕ) : DupState :=
  if i ∈ st.dups ∨ i ∈ st.ignore then st else
  let row := rows.getD i []
  let ndups := row.countP (fun e => decide (e.2 ≤ ((d150 ^ 2 : ℕ) : NNInf)))
  let currIdx := (row.take ndups).map Prod.fst
  if ndups = 2 ∧ (row.getD 1 (0, ⊤)).2 < ((d75 ^ 2 : ℕ) : NNInf) then
    { dups := st.dups ++ currIdx.drop 1, ignore := st.ignore ++ [currIdx.getD 0 0] }
  else if 2 < ndups then
    { dups := st.dups ++ (currIdx.drop 1).dropLast,
      ignore := st.ignore ++ [currIdx.getD 0 0, currIdx.getD (ndups - 1) 0] }
  else st

def duplicate_pass (pts : List Pt) (d75 d150 : ℕ) : List ℕ :=
  ((List.range pts.length).foldl (dupStep (grpRows pts) d75 d150)
    { dups := [], ignore := [] }).dups

def droppedIds (t : List Obs) (d75 d150 : ℕ) (s : ℕ) : List ℕ :=
  (duplicate_pass (groupPts t s) d75 d150).map (fun li => (groupIds t s).getD li 0)

def remove_singletons_duplicates (t : List Obs) (res : ℚ) : Option (List Obs) :=
  if mkRat 9 100 ≤ res ∧ res ≤ 30 then
    some (((List.range t.length).filter (fun i =>
      decide (4 < speciesCount t (spOf t i)) &&
      ! decide (i ∈ droppedIds t (ceilMulNat 75 res) (ceilMulNat 150 res) (spOf t i)) &&
      ! singletonFlag (groupPts t (spOf t i)) (ceilMulNat 256 res))).map
      (fun i => t.getD i obsDefault))
  else none

def c6tab : List Obs :=
  [(7, (0, 0)), (7, (10, 0)), (7, (20, 0)), (7, (30, 0)), (7, (40, 0)), (7, (50, 0))]

/-- C6: code bug. One species, six observations all mutually within the
256·res co-occurrence radius: the spec (and the function's own comment)
says the species is a singleton and must be removed entirely, but the
row counts of `dist[:,1:]` are at most `len(group) - 1`, so the equality
with `len(group)` at line 924 never holds: the flag stays false and the
output still contains observations of the species. -/
theorem C6_singleton_check_cannot_fire :
    (∀ i ∈ List.range c6tab.length, ∀ j ∈ List.range c6tab.length,
      distSq (ptOf c6tab i) (ptOf c6tab j) ≤ ceilMulNat 256 1 ^ 2) ∧
    singletonFlag (groupPts c6tab 7) (ceilMulNat 256 1) = false ∧
    remove_singletons_duplicates c6tab 1 = some [(7, (0, 0)), (7, (50, 0))] := by
  decide

def c7tab : List Obs :=
  [(1, (0, 0)), (1, (10, 0)), (1, (20, 0)), (1, (100000, 0)),
   (1, (200000, 0)), (1, (300000, 0))]

def c7run1 : List Obs :=
  [(1, (0, 0)), (1, (20, 0)), (1, (100000, 0)), (1, (200000, 0)), (1, (300000, 0))]

def c7run2 : List Obs :=
  [(1, (0, 0)), (1, (100000, 0)), (1, (200000, 0)), (1, (300000, 0))]

/-- C7 counterexample: the first run keeps the nearest and farthest of a
three-duplicate blob at 0/10/20 m; the survivors 0 and 20 form a pair
within 75·res that the second run removes, so the pass is not idempotent. -/
theorem C7_not_idempotent_counterexample :
    remove_singletons_duplicates c7tab 1 = some c7run1 ∧
    remove_singletons_duplicates c7run1 1 = some c7run2 ∧
    c7run2 ≠ c7run1 := by
  decide

/-- C7 (amended): within a single run, an index already recorded as
dropped or as kept is skipped by the duplicate loop; idempotence across
runs fails (see the counterexample). -/
theorem C7_pass_skips_processed (rows : List (List NbrEntry)) (d75 d150 : ℕ)
    (st : DupState) (i : ℕ) (h : i ∈ st.dups ∨ i ∈ st.ignore) :
    dupStep rows d75 d150 st i = st := by
  unfold dupStep
  rw [if_pos h]

theorem C7_pass_skips_processed_witness :
    dupStep [] 75 150 { dups := [0], ignore := [] } 0 = { dups := [0], ignore := [] } :=
  C7_pass_skips_processed [] 75 150 { dups := [0], ignore := [] } 0 (Or.inl (by decide))

/-- C10: every observation in the output of remove_singletons_duplicates
belongs to a species with more than 4 observations in the input — species
with 4 or fewer observations are dropped entirely by the value-counts
filter at line 910 before any singleton or duplicate check runs. -/
theorem C10_low_count_species_removed {t : List Obs} {res : ℚ} {out : List Obs}
    (hout : remove_singletons_duplicates t res = some out) :
    ∀ r ∈ out, 4 < speciesCount t r.1 := by
  unfold remove_singletons_duplicates at hout
  by_cases hg : mkRat 9 100 ≤ res ∧ res ≤ 30
  · rw [if_pos hg] at hout
    have hout' := Option.some.inj hout
    intro r hr
    rw [← hout'] at hr
    rcases List.mem_map.mp hr with ⟨i, hi, rfl⟩
    have hp := (List.mem_filter.mp hi).2
    simp only [Bool.and_eq_true, decide_eq_true_iff] at hp
    exact hp.1.1
  · rw [if_neg hg] at hout
    exact absurd hout (by simp)

def c10tab : List Obs :=
  [(3, (0, 0)), (5, (0, 0)), (5, (1000, 0)), (5, (2000, 0)), (5, (3000, 0)),
   (5, (4000, 0)), (3, (10000, 0))]

def c10out : List Obs :=
  [(5, (0, 0)), (5, (1000, 0)), (5, (2000, 0)), (5, (3000, 0)), (5, (4000, 0))]

theorem C10_low_count_species_removed_witness :
    4 < speciesCount c10tab 5 :=
  @C10_low_count_species_removed c10tab 1 c10out (by decide)
    ((5 : ℕ), ((0 : ℤ), (0 : ℤ))) (by decide)

-- ## make_spatial_split (Build_Data.py 834-892)
-- Band i spans latitudes [lat, lat+bandwidth]; the test polygon keeps a
-- buffer of exclude_size on both sides, the train polygons are everything
-- below lat and above lat+bandwidth (below only when i != 0).

